import Mathlib

/-!
Verification of the synchronization core of the flam-canvas collaborative
drawing server: the per-session history/undo/redo engine (`StateManager`),
the session registry (`RoomManager` / `Room`), and the socket event handlers
that route mutations and broadcasts.  Each definition is a shallow embedding
of the corresponding JavaScript source; stateful methods become pure
functions from state to state (paired with a return value or a list of
emitted broadcast messages where the source returns a value or calls
`io.emit`).
-/

namespace FlamCanvas

/-- A completed drawing stroke.  The synchronization core reads and writes
only `userId` (the author's connection id, set server-side in the
`drawing_step` handler); the remaining client-supplied fields (points, color,
width, tool) are carried through opaquely and are condensed into `payload`.
Opaque string ids are modelled as naturals. -/
structure Stroke where
  userId : Nat
  payload : Nat
deriving DecidableEq

/-- The per-session history engine, `class StateManager` of
src/unnamed/part_003 (state-manager.js).  The JS objects keyed by user id
(`this.undoStack`, `this.redoStack`) and the `this.userStrokes` `Map` are
modelled as functions into `Option`, with `none` standing for an absent key. -/
structure StateManager where
  history : List Stroke
  undoStack : Nat → Option (List Stroke)
  redoStack : Nat → Option (List Stroke)
  userStrokes : Nat → Option (List Stroke)

/-- The `StateManager` constructor: empty history, empty stacks, empty map. -/
def StateManager.init : StateManager :=
  { history := []
    undoStack := fun _ => none
    redoStack := fun _ => none
    userStrokes := fun _ => none }

/-- `addStroke(stroke)`: sets `this.redoStack = {}`, pushes the stroke onto
`this.history`, and appends it to `this.userStrokes.get(stroke.userId)`
(creating the entry when absent; `getD []` folds the
`if (!this.userStrokes.has(...)) set(..., [])` initialization into one step). -/
def addStroke (sm : StateManager) (stroke : Stroke) : StateManager :=
  { history := sm.history ++ [stroke]
    undoStack := sm.undoStack
    redoStack := fun _ => none
    userStrokes :=
      Function.update sm.userStrokes stroke.userId
        (some (((sm.userStrokes stroke.userId).getD []) ++ [stroke])) }

/-- `getHistory()` returns the copy `[...this.history]`; in this pure model
the copy has the same value as the original.  The aliasing content of the
defensive copy (a snapshot is a distinct array that later mutations do not
touch) is modelled separately in namespace `Heap` below. -/
def getHistory (sm : StateManager) : List Stroke := sm.history

/-- The backward scan shared by `undoLastStrokeByUser` and `canUndo`:
`for (let i = history.length - 1; i >= 0; i--) if (history[i].userId === userId)`.
Returns the largest index whose stroke is authored by `u`, as a `Fin`. -/
def lastIdxByUser : (l : List Stroke) → (u : Nat) → Option (Fin l.length)
  | [], _ => none
  | s :: rest, u =>
    match lastIdxByUser rest u with
    | some i => some i.succ
    | none => if s.userId = u then some ⟨0, Nat.succ_pos rest.length⟩ else none

/-- `undoLastStrokeByUser(userId)`: backward-scans `history` for the author's
last stroke; if none, returns `null` with no mutation.  Otherwise splices the
stroke out of `history`, pushes it onto `undoStack[userId]` (creating the
entry when absent), pops `userStrokes.get(userId)` when that entry exists,
and returns the stroke. -/
def undoLastStrokeByUser (sm : StateManager) (u : Nat) :
    Option Stroke × StateManager :=
  match lastIdxByUser sm.history u with
  | none => (none, sm)
  | some i =>
    let undoneStroke := sm.history.get i
    (some undoneStroke,
      { history := sm.history.eraseIdx i.val
        undoStack :=
          Function.update sm.undoStack u
            (some (((sm.undoStack u).getD []) ++ [undoneStroke]))
        redoStack := sm.redoStack
        userStrokes :=
          match sm.userStrokes u with
          | none => sm.userStrokes
          | some l => Function.update sm.userStrokes u (some l.dropLast) })

/-- `redoStrokeByUser(userId)`: if `undoStack[userId]` is absent or empty,
returns `null` with no mutation.  Otherwise pops it (`pop` removes the last
element), pushes the popped stroke onto `history`, appends it to
`userStrokes.get(userId)` (creating the entry when absent), and returns it.
Note the source pops `this.undoStack`, not `this.redoStack`. -/
def redoStrokeByUser (sm : StateManager) (u : Nat) :
    Option Stroke × StateManager :=
  match sm.undoStack u with
  | none => (none, sm)
  | some stack =>
    if hne : stack = [] then (none, sm)
    else
      let redoStroke := stack.getLast hne
      (some redoStroke,
        { history := sm.history ++ [redoStroke]
          undoStack := Function.update sm.undoStack u (some stack.dropLast)
          redoStack := sm.redoStack
          userStrokes :=
            Function.update sm.userStrokes u
              (some (((sm.userStrokes u).getD []) ++ [redoStroke])) })

/-- `clearHistory()`: `this.history = []; this.undoStack = {};
this.redoStack = {}; this.userStrokes.clear()`. -/
def clearHistory (_sm : StateManager) : StateManager :=
  { history := []
    undoStack := fun _ => none
    redoStack := fun _ => none
    userStrokes := fun _ => none }

/-- `getStrokeCount()` -/
def getStrokeCount (sm : StateManager) : Nat := sm.history.length

/-- `getUserStrokeCount(userId)`: `this.userStrokes.get(userId)?.length || 0`. -/
def getUserStrokeCount (sm : StateManager) (u : Nat) : Nat :=
  ((sm.userStrokes u).getD []).length

/-- `getStrokesByUser(userId)`: `this.userStrokes.get(userId) || []`. -/
def getStrokesByUser (sm : StateManager) (u : Nat) : List Stroke :=
  (sm.userStrokes u).getD []

/-- `canUndo(userId)`: the same backward scan, succeeding iff a stroke by
`userId` is present in `history`. -/
def canUndo (sm : StateManager) (u : Nat) : Bool :=
  (lastIdxByUser sm.history u).isSome

/-- `canRedo(userId)`: `this.undoStack[userId] && this.undoStack[userId].length > 0`. -/
def canRedo (sm : StateManager) (u : Nat) : Bool :=
  match sm.undoStack u with
  | none => false
  | some l => decide (0 < l.length)

/-- A roster entry, created in the `join_room` handler:
`{ id: socket.id, userId, color: generateRandomColor() }`, with a `cursor`
field added by the `cursor_move` handler.  `id` is the connection (socket)
id; `userId` is the display name.  The randomly chosen color is a plain
datum here (the generator draws from a fixed palette). -/
structure User where
  id : Nat
  userId : Nat
  color : Nat
  cursor : Option (Int × Int)
deriving DecidableEq

/-- A session, `class Room` of src/server/rooms.js: a roster plus one
history engine.  `createdAt` (a wall-clock `Date`) is omitted: no claim and
no handler reads it except the stats report. -/
structure Room where
  roomId : Nat
  users : List User
  stateManager : StateManager

/-- The `Room` constructor: empty roster, fresh `StateManager`. -/
def Room.new (roomId : Nat) : Room :=
  { roomId := roomId, users := [], stateManager := StateManager.init }

/-- `Room.addUser(user)`: `this.users.push(user)`. -/
def Room.addUser (r : Room) (u : User) : Room :=
  { r with users := r.users ++ [u] }

/-- `Room.removeUser(userId)`: `this.users = this.users.filter(u => u.id !== userId)`. -/
def Room.removeUser (r : Room) (socketId : Nat) : Room :=
  { r with users := r.users.filter (fun u => u.id ≠ socketId) }

/-- `Room.getUserById(userId)`: `this.users.find(u => u.id === userId)`. -/
def Room.getUserById (r : Room) (socketId : Nat) : Option User :=
  r.users.find? (fun u => u.id == socketId)

/-- `class RoomManager`: `this.rooms = new Map()`, modelled as a function
from room id to `Option Room`, `none` for an absent key. -/
structure ServerState where
  rooms : Nat → Option Room

/-- The `RoomManager` constructor: empty map. -/
def ServerState.init : ServerState := { rooms := fun _ => none }

/-- `RoomManager.createRoom(roomId)`: inserts a fresh `Room` when the key is
absent, then returns `this.rooms.get(roomId)`. -/
def createRoom (st : ServerState) (roomId : Nat) : ServerState × Room :=
  match st.rooms roomId with
  | some r => (st, r)
  | none =>
    let r := Room.new roomId
    ({ rooms := Function.update st.rooms roomId (some r) }, r)

/-- `RoomManager.getRoom(roomId)`: `this.rooms.get(roomId)`. -/
def getRoom (st : ServerState) (roomId : Nat) : Option Room := st.rooms roomId

/-- `RoomManager.deleteRoom(roomId)`: deletes the key when present. -/
def deleteRoom (st : ServerState) (roomId : Nat) : ServerState :=
  match st.rooms roomId with
  | some _ => { rooms := Function.update st.rooms roomId none }
  | none => st

/-- Writing an updated `Room` back into the registry.  In the source the
handlers mutate the room object in place; in this state-passing model every
handler that touched a room stores the new value under the same key. -/
def setRoom (st : ServerState) (roomId : Nat) (room : Room) : ServerState :=
  { rooms := Function.update st.rooms roomId (some room) }

/-- The messages the socket handlers emit (`socket.emit`, `io.to(room).emit`,
`socket.broadcast.to(room).emit`), tagged by event name, carrying the payload
fields the source sends.  The undo/redo tag (`action: 'undo' | 'redo'`). -/
inductive HAction where
  | undo
  | redo
deriving DecidableEq

/-- One emitted message.  `loadHistory` goes to the joining socket only;
`cursorMoved`, `userJoined` go to everyone but the sender; the rest go to the
whole room.  Addressing is part of the constructor's meaning, left implicit. -/
inductive Broadcast where
  | loadHistory (history : List Stroke) (users : List User)
  | usersUpdated (users : List User)
  | userJoined (user : Option User) (totalUsers : Nat)
  | drawEvent (userId : Nat) (stroke : Stroke)
  | cursorMoved (userId : Nat) (userColor : Nat) (userName : Nat) (x y : Int)
  | historyUpdated (userId : Nat) (history : List Stroke) (action : HAction)
  | canvasCleared (userId : Nat)
  | userLeft (userId : Nat) (totalUsers : Nat)
deriving DecidableEq

/-- The `join_room` handler: get-or-create the room, push the new roster
entry, then emit `load_history` to the sender and `users_updated` /
`user_joined` to the room.  The random color is a parameter. -/
def handleJoin (st : ServerState) (socketId roomId userId color : Nat) :
    ServerState × List Broadcast :=
  let (st1, room) := createRoom st roomId
  let room1 := room.addUser { id := socketId, userId := userId, color := color, cursor := none }
  (setRoom st1 roomId room1,
    [Broadcast.loadHistory (getHistory room1.stateManager) room1.users,
     Broadcast.usersUpdated room1.users,
     Broadcast.userJoined (room1.getUserById socketId) room1.users.length])

/-- The `drawing_step` handler: if the room is absent, nothing; otherwise
overwrite `stroke.userId` with the sender's socket id, `addStroke`, and emit
`draw_event` to the whole room. -/
def handleDrawingStep (st : ServerState) (socketId roomId : Nat) (stroke : Stroke) :
    ServerState × List Broadcast :=
  match st.rooms roomId with
  | none => (st, [])
  | some room =>
    let stroke1 := { stroke with userId := socketId }
    (setRoom st roomId { room with stateManager := addStroke room.stateManager stroke1 },
     [Broadcast.drawEvent socketId stroke1])

/-- The first-match in-place cursor write of the `cursor_move` handler:
`find` returns the first roster entry with the socket id and the handler
mutates that object's `cursor` field. -/
def setCursorFirst : List User → Nat → Int × Int → List User
  | [], _, _ => []
  | u :: rest, socketId, p =>
    if u.id = socketId then { u with cursor := some p } :: rest
    else u :: setCursorFirst rest socketId p

/-- The `cursor_move` handler: if the room and the sender's roster entry
exist, record the cursor and emit `cursor_moved` to the others; otherwise
nothing. -/
def handleCursorMove (st : ServerState) (socketId roomId : Nat) (x y : Int) :
    ServerState × List Broadcast :=
  match st.rooms roomId with
  | none => (st, [])
  | some room =>
    match room.getUserById socketId with
    | none => (st, [])
    | some user =>
      (setRoom st roomId { room with users := setCursorFirst room.users socketId (x, y) },
       [Broadcast.cursorMoved socketId user.color user.userId x y])

/-- The `undo` handler: if the room is absent, nothing; otherwise run
`undoLastStrokeByUser(socket.id)` and, only when a stroke came back, emit
`history_updated` with the full new history. -/
def handleUndo (st : ServerState) (socketId roomId : Nat) :
    ServerState × List Broadcast :=
  match st.rooms roomId with
  | none => (st, [])
  | some room =>
    match undoLastStrokeByUser room.stateManager socketId with
    | (none, sm1) => (setRoom st roomId { room with stateManager := sm1 }, [])
    | (some _, sm1) =>
      (setRoom st roomId { room with stateManager := sm1 },
       [Broadcast.historyUpdated socketId (getHistory sm1) HAction.undo])

/-- The `redo` handler, symmetric to `handleUndo`. -/
def handleRedo (st : ServerState) (socketId roomId : Nat) :
    ServerState × List Broadcast :=
  match st.rooms roomId with
  | none => (st, [])
  | some room =>
    match redoStrokeByUser room.stateManager socketId with
    | (none, sm1) => (setRoom st roomId { room with stateManager := sm1 }, [])
    | (some _, sm1) =>
      (setRoom st roomId { room with stateManager := sm1 },
       [Broadcast.historyUpdated socketId (getHistory sm1) HAction.redo])

/-- The `clear_canvas` handler: if the room exists, `clearHistory` and emit
`canvas_cleared`; otherwise nothing. -/
def handleClear (st : ServerState) (socketId roomId : Nat) :
    ServerState × List Broadcast :=
  match st.rooms roomId with
  | none => (st, [])
  | some room =>
    (setRoom st roomId { room with stateManager := clearHistory room.stateManager },
     [Broadcast.canvasCleared socketId])

/-- The `disconnect` handler.  `userData` is `socket.userData`, set at join
(`{ roomId, userId }`); absent when the socket never joined.  Remove the
roster entry; if the roster became empty, delete the room, else emit
`users_updated` and `user_left`. -/
def handleDisconnect (st : ServerState) (socketId : Nat)
    (userData : Option (Nat × Nat)) : ServerState × List Broadcast :=
  match userData with
  | none => (st, [])
  | some (roomId, _userId) =>
    match st.rooms roomId with
    | none => (st, [])
    | some room =>
      let room1 := room.removeUser socketId
      if room1.users.length = 0 then
        (deleteRoom (setRoom st roomId room1) roomId, [])
      else
        (setRoom st roomId room1,
         [Broadcast.usersUpdated room1.users,
          Broadcast.userLeft socketId room1.users.length])

/-- One mutating engine operation, used to quantify over arbitrary
sequences of `StateManager` calls. -/
inductive EngineOp where
  | add (s : Stroke)
  | undo (u : Nat)
  | redo (u : Nat)
  | clear
deriving DecidableEq

/-- The state effect of one engine operation (undo/redo discard the returned
stroke). -/
def applyOp (sm : StateManager) : EngineOp → StateManager
  | EngineOp.add s => addStroke sm s
  | EngineOp.undo u => (undoLastStrokeByUser sm u).2
  | EngineOp.redo u => (redoStrokeByUser sm u).2
  | EngineOp.clear => clearHistory sm

/-- Run a sequence of engine operations from a starting state. -/
def runOps (sm : StateManager) : List EngineOp → StateManager
  | [] => sm
  | op :: ops => runOps (applyOp sm op) ops

namespace Heap

/-!
A second, heap-aware embedding of `StateManager`, refining the pure model
above just enough to express JavaScript array aliasing: mutable arrays of
strokes live in an arena (`heap`), a list of cells indexed by allocation
order, and `this.history` is a pointer into it.  `push`/`splice` mutate the
cell in place (`List.set`); `[...this.history]` and `this.history = []`
allocate fresh cells.  This is what makes `getHistory`'s defensive copy
observable: a snapshot is a cell distinct from the history cell.
-/

/-- `StateManager` with its history array held by reference. -/
structure HStateManager where
  heap : List (List Stroke)
  histPtr : Nat
  undoStack : Nat → Option (List Stroke)
  redoStack : Nat → Option (List Stroke)
  userStrokes : Nat → Option (List Stroke)

/-- Dereference the history pointer. -/
def readHist (sm : HStateManager) : List Stroke := sm.heap.getD sm.histPtr []

/-- The constructor: one freshly allocated empty array for `this.history`. -/
def init : HStateManager :=
  { heap := [[]]
    histPtr := 0
    undoStack := fun _ => none
    redoStack := fun _ => none
    userStrokes := fun _ => none }

/-- `addStroke`: `this.history.push(stroke)` mutates the history cell. -/
def addStroke (sm : HStateManager) (stroke : Stroke) : HStateManager :=
  { heap := sm.heap.set sm.histPtr (readHist sm ++ [stroke])
    histPtr := sm.histPtr
    undoStack := sm.undoStack
    redoStack := fun _ => none
    userStrokes :=
      Function.update sm.userStrokes stroke.userId
        (some (((sm.userStrokes stroke.userId).getD []) ++ [stroke])) }

/-- `undoLastStrokeByUser`: `this.history.splice(i, 1)` mutates the history
cell. -/
def undoLastStrokeByUser (sm : HStateManager) (u : Nat) :
    Option Stroke × HStateManager :=
  match lastIdxByUser (readHist sm) u with
  | none => (none, sm)
  | some i =>
    let undoneStroke := (readHist sm).get i
    (some undoneStroke,
      { heap := sm.heap.set sm.histPtr ((readHist sm).eraseIdx i.val)
        histPtr := sm.histPtr
        undoStack :=
          Function.update sm.undoStack u
            (some (((sm.undoStack u).getD []) ++ [undoneStroke]))
        redoStack := sm.redoStack
        userStrokes :=
          match sm.userStrokes u with
          | none => sm.userStrokes
          | some l => Function.update sm.userStrokes u (some l.dropLast) })

/-- `redoStrokeByUser`: `this.history.push(...)` mutates the history cell. -/
def redoStrokeByUser (sm : HStateManager) (u : Nat) :
    Option Stroke × HStateManager :=
  match sm.undoStack u with
  | none => (none, sm)
  | some stack =>
    if hne : stack = [] then (none, sm)
    else
      let redoStroke := stack.getLast hne
      (some redoStroke,
        { heap := sm.heap.set sm.histPtr (readHist sm ++ [redoStroke])
          histPtr := sm.histPtr
          undoStack := Function.update sm.undoStack u (some stack.dropLast)
          redoStack := sm.redoStack
          userStrokes :=
            Function.update sm.userStrokes u
              (some (((sm.userStrokes u).getD []) ++ [redoStroke])) })

/-- `clearHistory`: `this.history = []` rebinds the field to a freshly
allocated empty array; the old cell is abandoned, not overwritten. -/
def clearHistory (sm : HStateManager) : HStateManager :=
  { heap := sm.heap ++ [[]]
    histPtr := sm.heap.length
    undoStack := fun _ => none
    redoStack := fun _ => none
    userStrokes := fun _ => none }

/-- `getHistory()`: `return [...this.history]` allocates a fresh cell holding
a copy of the history cell's contents and hands out a reference to it. -/
def getHistory (sm : HStateManager) : HStateManager × Nat :=
  ({ sm with heap := sm.heap ++ [readHist sm] }, sm.heap.length)

/-- What a caller holding a snapshot reference sees. -/
def readPtr (sm : HStateManager) (p : Nat) : List Stroke := sm.heap.getD p []

/-- The state effect of one engine operation in the heap model. -/
def applyOp (sm : HStateManager) : EngineOp → HStateManager
  | EngineOp.add s => addStroke sm s
  | EngineOp.undo u => (undoLastStrokeByUser sm u).2
  | EngineOp.redo u => (redoStrokeByUser sm u).2
  | EngineOp.clear => clearHistory sm

/-- Run a sequence of engine operations in the heap model. -/
def runOps (sm : HStateManager) : List EngineOp → HStateManager
  | [] => sm
  | op :: ops => runOps (applyOp sm op) ops

/-- Well-formedness: the history pointer refers to an allocated cell. -/
def WF (sm : HStateManager) : Prop := sm.histPtr < sm.heap.length

end Heap

/-! ### Helper lemmas about the backward scan and list surgery -/

theorem getElem_append_cons (pre : List Stroke) (s : Stroke) (post : List Stroke)
    (h : pre.length < (pre ++ s :: post).length) :
    (pre ++ s :: post).get ⟨pre.length, h⟩ = s := by
  induction pre with
  | nil => rfl
  | cons a pre ih => exact ih (by simp)

theorem eraseIdx_append_cons (pre : List Stroke) (s : Stroke) (post : List Stroke) :
    (pre ++ s :: post).eraseIdx pre.length = pre ++ post := by
  induction pre with
  | nil => rfl
  | cons a pre ih =>
    show a :: (pre ++ s :: post).eraseIdx pre.length = a :: (pre ++ post)
    rw [ih]

theorem lastIdxByUser_eq_none (l : List Stroke) (u : Nat)
    (h : lastIdxByUser l u = none) : ∀ s ∈ l, s.userId ≠ u := by
  induction l with
  | nil => intro s hs; cases hs
  | cons a l ih =>
    intro s hs
    rw [lastIdxByUser] at h
    cases hrec : lastIdxByUser l u with
    | some i => rw [hrec] at h; simp at h
    | none =>
      rw [hrec] at h
      by_cases ha : a.userId = u
      · rw [if_pos ha] at h; simp at h
      · rcases List.mem_cons.mp hs with rfl | hs2
        · exact ha
        · exact ih hrec s hs2

theorem lastIdxByUser_eq_none_of (l : List Stroke) (u : Nat)
    (h : ∀ s ∈ l, s.userId ≠ u) : lastIdxByUser l u = none := by
  induction l with
  | nil => rfl
  | cons a l ih =>
    rw [lastIdxByUser, ih (fun s hs => h s (List.mem_cons_of_mem a hs))]
    simp [h a (List.mem_cons_self a l)]

theorem lastIdxByUser_get (l : List Stroke) (u : Nat) :
    ∀ i : Fin l.length, lastIdxByUser l u = some i → (l.get i).userId = u := by
  induction l with
  | nil => intro i; exact absurd i.2 (by simp)
  | cons a l ih =>
    intro i h
    rw [lastIdxByUser] at h
    cases hrec : lastIdxByUser l u with
    | some j =>
      rw [hrec] at h
      injection h with h2
      subst h2
      exact ih j hrec
    | none =>
      rw [hrec] at h
      by_cases ha : a.userId = u
      · rw [if_pos ha] at h
        injection h with h2
        subst h2
        exact ha
      · rw [if_neg ha] at h; cases h

theorem lastIdxByUser_largest (l : List Stroke) (u : Nat) :
    ∀ i : Fin l.length, lastIdxByUser l u = some i →
      ∀ j : Fin l.length, (l.get j).userId = u → j.val ≤ i.val := by
  induction l with
  | nil => intro i; exact absurd i.2 (by simp)
  | cons a l ih =>
    intro i h j hj
    rw [lastIdxByUser] at h
    cases hrec : lastIdxByUser l u with
    | some k =>
      rw [hrec] at h
      injection h with h2
      subst h2
      rcases j with ⟨jv, hjv⟩
      cases jv with
      | zero => exact Nat.zero_le _
      | succ jv2 =>
        exact Nat.succ_le_succ (ih k hrec ⟨jv2, Nat.lt_of_succ_lt_succ hjv⟩ hj)
    | none =>
      rw [hrec] at h
      by_cases ha : a.userId = u
      · rw [if_pos ha] at h
        injection h with h2
        subst h2
        rcases j with ⟨jv, hjv⟩
        cases jv with
        | zero => exact Nat.le_refl 0
        | succ jv2 =>
          exact absurd hj
            (lastIdxByUser_eq_none l u hrec _
              (List.get_mem l jv2 (Nat.lt_of_succ_lt_succ hjv)))
      · rw [if_neg ha] at h; cases h

theorem lastIdxByUser_append_cons (pre : List Stroke) (s : Stroke)
    (post : List Stroke) (u : Nat) (hs : s.userId = u)
    (hpost : ∀ t ∈ post, t.userId ≠ u) :
    ∃ hlt : pre.length < (pre ++ s :: post).length,
      lastIdxByUser (pre ++ s :: post) u = some ⟨pre.length, hlt⟩ := by
  induction pre with
  | nil =>
    refine ⟨by simp, ?_⟩
    show lastIdxByUser (s :: post) u = _
    rw [lastIdxByUser, lastIdxByUser_eq_none_of post u hpost]
    simp [hs]
  | cons a pre ih =>
    obtain ⟨hlt, hidx⟩ := ih
    refine ⟨by simp, ?_⟩
    show lastIdxByUser (a :: (pre ++ s :: post)) u = _
    rw [lastIdxByUser, hidx]
    rfl

/-! ### Characterization of the engine operations -/

theorem undo_none_of_no_match (sm : StateManager) (u : Nat)
    (h : ∀ s ∈ sm.history, s.userId ≠ u) :
    undoLastStrokeByUser sm u = (none, sm) := by
  rw [undoLastStrokeByUser, lastIdxByUser_eq_none_of sm.history u h]

theorem undo_eq_of_split (sm : StateManager) (u : Nat) (pre : List Stroke)
    (s : Stroke) (post : List Stroke) (hh : sm.history = pre ++ s :: post)
    (hs : s.userId = u) (hpost : ∀ t ∈ post, t.userId ≠ u) :
    (undoLastStrokeByUser sm u).1 = some s ∧
    (undoLastStrokeByUser sm u).2.history = pre ++ post ∧
    (undoLastStrokeByUser sm u).2.undoStack u
      = some (((sm.undoStack u).getD []) ++ [s]) ∧
    (∀ v, v ≠ u → (undoLastStrokeByUser sm u).2.undoStack v = sm.undoStack v) ∧
    (undoLastStrokeByUser sm u).2.redoStack = sm.redoStack := by
  obtain ⟨hist, us, rs, uk⟩ := sm
  simp only at hh
  subst hh
  obtain ⟨hlt, hidx⟩ := lastIdxByUser_append_cons pre s post u hs hpost
  simp only [undoLastStrokeByUser] at hidx ⊢
  rw [hidx]
  refine ⟨?_, ?_, ?_, ?_, ?_⟩
  · simpa using getElem_append_cons pre s post hlt
  · simp [eraseIdx_append_cons pre s post]
  · simp only [Function.update_same]
    rw [getElem_append_cons pre s post hlt]
  · intro v hv
    simp [Function.update_noteq hv]
  · rfl

theorem undo_some_inv (sm : StateManager) (u : Nat) (s : Stroke)
    (sm1 : StateManager) (h : undoLastStrokeByUser sm u = (some s, sm1)) :
    ∃ i : Fin sm.history.length,
      lastIdxByUser sm.history u = some i ∧
      sm.history.get i = s ∧
      sm1.history = sm.history.eraseIdx i.val ∧
      sm1.undoStack u = some (((sm.undoStack u).getD []) ++ [s]) := by
  rw [undoLastStrokeByUser] at h
  cases hidx : lastIdxByUser sm.history u with
  | none => rw [hidx] at h; simp at h
  | some i =>
    rw [hidx] at h
    injection h with h1 h2
    injection h1 with h1
    subst h2
    refine ⟨i, rfl, h1, rfl, ?_⟩
    show Function.update sm.undoStack u
        (some (((sm.undoStack u).getD []) ++ [sm.history.get i])) u = _
    rw [Function.update_same, h1]

theorem redo_none_of_empty (sm : StateManager) (u : Nat)
    (h : (sm.undoStack u).getD [] = []) :
    redoStrokeByUser sm u = (none, sm) := by
  cases hst : sm.undoStack u with
  | none => rw [redoStrokeByUser, hst]
  | some l =>
    rw [hst] at h
    simp only [Option.getD_some] at h
    subst h
    simp [redoStrokeByUser, hst]

theorem redo_eq_of_snoc (sm : StateManager) (u : Nat) (stack : List Stroke)
    (s : Stroke) (h : sm.undoStack u = some (stack ++ [s])) :
    (redoStrokeByUser sm u).1 = some s ∧
    (redoStrokeByUser sm u).2.history = sm.history ++ [s] ∧
    (redoStrokeByUser sm u).2.undoStack u = some stack ∧
    (redoStrokeByUser sm u).2.userStrokes u
      = some (((sm.userStrokes u).getD []) ++ [s]) := by
  have hne : stack ++ [s] ≠ [] := by simp
  simp only [redoStrokeByUser, h]
  rw [dif_neg hne]
  refine ⟨?_, ?_, ?_, ?_⟩
  · simp
  · simp
  · simp [Function.update_same]
  · simp [Function.update_same]

/-! ### Helper lemmas about the session registry -/

theorem setRoom_self (st : ServerState) (rid : Nat) (room : Room)
    (h : st.rooms rid = some room) : setRoom st rid room = st := by
  cases st with
  | mk rooms =>
    simp only [setRoom]
    congr 1
    rw [← h]
    exact Function.update_eq_self rid rooms

theorem setRoom_rooms_same (st : ServerState) (rid : Nat) (room : Room) :
    (setRoom st rid room).rooms rid = some room := by
  simp [setRoom]

theorem setRoom_rooms_ne (st : ServerState) (r1 r2 : Nat) (room : Room)
    (h : r2 ≠ r1) : (setRoom st r1 room).rooms r2 = st.rooms r2 := by
  simp [setRoom, Function.update_noteq h]

theorem deleteRoom_rooms_ne (st : ServerState) (r1 r2 : Nat) (h : r2 ≠ r1) :
    (deleteRoom st r1).rooms r2 = st.rooms r2 := by
  rw [deleteRoom]
  cases hr : st.rooms r1 with
  | none => rfl
  | some room => simp [Function.update_noteq h]

theorem deleteRoom_rooms_of_some (st : ServerState) (rid : Nat) (room : Room)
    (h : st.rooms rid = some room) : (deleteRoom st rid).rooms rid = none := by
  rw [deleteRoom, h]
  simp

theorem createRoom_rooms_ne (st : ServerState) (r1 r2 : Nat) (h : r2 ≠ r1) :
    ((createRoom st r1).1).rooms r2 = st.rooms r2 := by
  rw [createRoom]
  cases hr : st.rooms r1 with
  | none => simp [Function.update_noteq h]
  | some room => rfl

/-! ### Concrete fixtures used by the witnesses -/

/-- A session state whose history is `[A1, B1, A2]` (authors 1, 2, 1),
built through the engine itself. -/
def smABA : StateManager :=
  addStroke (addStroke (addStroke StateManager.init ⟨1, 11⟩) ⟨2, 21⟩) ⟨1, 12⟩

/-! ### The claims -/

/-- **C1** (the claim is false of the code; this theorem evaluates the code at
the failing input).  The spec asserts that after participant 1 undoes a
stroke, participant 2 adding any stroke invalidates participant 1's redo
(redo must return none).  In the code, `addStroke` resets only the
write-only `this.redoStack`, while `redoStrokeByUser` pops
`this.undoStack`, which `addStroke` never touches — so the redo still
returns the undone stroke. -/
theorem addStroke_does_not_clear_redo_lineage :
    (redoStrokeByUser
        (addStroke (undoLastStrokeByUser (addStroke StateManager.init ⟨1, 11⟩) 1).2
          ⟨2, 21⟩) 1).1 = some ⟨1, 11⟩
    ∧ canRedo
        (addStroke (undoLastStrokeByUser (addStroke StateManager.init ⟨1, 11⟩) 1).2
          ⟨2, 21⟩) 1 = true := by
  exact ⟨by decide, by decide⟩

/-- **C2.** `undoLastStrokeByUser(u)` removes the last stroke in history
authored by `u` (tail scan), preserves the relative order of all other
strokes, pushes exactly that stroke onto `undoStack[u]`, and returns it;
with no matching stroke it returns none and the whole state is unchanged. -/
theorem undoLastStrokeByUser_spec (sm : StateManager) (u : Nat) :
    (∀ pre s post,
        sm.history = pre ++ s :: post → s.userId = u →
          (∀ t ∈ post, t.userId ≠ u) →
            (undoLastStrokeByUser sm u).1 = some s
            ∧ (undoLastStrokeByUser sm u).2.history = pre ++ post
            ∧ (undoLastStrokeByUser sm u).2.undoStack u
                = some (((sm.undoStack u).getD []) ++ [s]))
    ∧ ((∀ s ∈ sm.history, s.userId ≠ u) →
        undoLastStrokeByUser sm u = (none, sm)) := by
  constructor
  · intro pre s post hh hs hpost
    obtain ⟨h1, h2, h3, _, _⟩ := undo_eq_of_split sm u pre s post hh hs hpost
    exact ⟨h1, h2, h3⟩
  · exact undo_none_of_no_match sm u

/-- Witness for C2 at history `[A1, B1, A2]`: undo by author 1 returns `A2`
and leaves `[A1, B1]`. -/
theorem undoLastStrokeByUser_spec_witness :
    (undoLastStrokeByUser smABA 1).1 = some ⟨1, 12⟩
    ∧ (undoLastStrokeByUser smABA 1).2.history = [⟨1, 11⟩, ⟨2, 21⟩] := by
  have h := (undoLastStrokeByUser_spec smABA 1).1 [⟨1, 11⟩, ⟨2, 21⟩] ⟨1, 12⟩ []
    (by decide) (by decide) (by decide)
  refine ⟨h.1, ?_⟩
  rw [h.2.1, List.append_nil]

/-- **C3.** `redoStrokeByUser(u)` pops the top of `undoStack[u]`; with a
stroke present it appends it at the end of history and returns it; with the
stack empty or absent it returns none and changes nothing. -/
theorem redoStrokeByUser_spec (sm : StateManager) (u : Nat) :
    (∀ stack s, sm.undoStack u = some (stack ++ [s]) →
        (redoStrokeByUser sm u).1 = some s
        ∧ (redoStrokeByUser sm u).2.history = sm.history ++ [s]
        ∧ (redoStrokeByUser sm u).2.undoStack u = some stack)
    ∧ ((sm.undoStack u).getD [] = [] → redoStrokeByUser sm u = (none, sm)) := by
  constructor
  · intro stack s h
    obtain ⟨h1, h2, h3, _⟩ := redo_eq_of_snoc sm u stack s h
    exact ⟨h1, h2, h3⟩
  · exact redo_none_of_empty sm u

/-- Witness for C3: after undoing `A2` out of `[A1, B1, A2]`, author 1's redo
returns `A2` and appends it at the tail. -/
theorem redoStrokeByUser_spec_witness :
    (redoStrokeByUser (undoLastStrokeByUser smABA 1).2 1).1 = some ⟨1, 12⟩
    ∧ (redoStrokeByUser (undoLastStrokeByUser smABA 1).2 1).2.history
        = [⟨1, 11⟩, ⟨2, 21⟩, ⟨1, 12⟩] := by
  have h := (redoStrokeByUser_spec (undoLastStrokeByUser smABA 1).2 1).1 [] ⟨1, 12⟩
    (by decide)
  refine ⟨h.1, ?_⟩
  rw [h.2.1]
  decide

/-- **C4.** No-op outcomes change nothing and broadcast nothing: undo with no
matching stroke and redo with an empty stack return none leaving the engine
state identical; undo/redo/clear/drawing events addressed to a nonexistent
session leave the server state unchanged and emit nothing, as do undo/redo
requests that returned none. -/
theorem noop_outcomes_silent (sm : StateManager) (st : ServerState)
    (u sid rid : Nat) (stroke : Stroke) (room : Room) :
    ((∀ s ∈ sm.history, s.userId ≠ u) → undoLastStrokeByUser sm u = (none, sm))
    ∧ ((sm.undoStack u).getD [] = [] → redoStrokeByUser sm u = (none, sm))
    ∧ (st.rooms rid = none →
        handleUndo st sid rid = (st, [])
        ∧ handleRedo st sid rid = (st, [])
        ∧ handleClear st sid rid = (st, [])
        ∧ handleDrawingStep st sid rid stroke = (st, []))
    ∧ (st.rooms rid = some room →
        ((∀ s ∈ room.stateManager.history, s.userId ≠ sid) →
            handleUndo st sid rid = (st, []))
        ∧ ((room.stateManager.undoStack sid).getD [] = [] →
            handleRedo st sid rid = (st, []))) := by
  refine ⟨undo_none_of_no_match sm u, redo_none_of_empty sm u, ?_, ?_⟩
  · intro h
    refine ⟨?_, ?_, ?_, ?_⟩ <;> simp [handleUndo, handleRedo, handleClear, handleDrawingStep, h]
  · intro hroom
    constructor
    · intro hno
      have hu := undo_none_of_no_match room.stateManager sid hno
      simp only [handleUndo, hroom, hu]
      exact congrArg (fun s => (s, ([] : List Broadcast))) (setRoom_self st rid room hroom)
    · intro hempty
      have hr := redo_none_of_empty room.stateManager sid hempty
      simp only [handleRedo, hroom, hr]
      exact congrArg (fun s => (s, ([] : List Broadcast))) (setRoom_self st rid room hroom)

/-- Witness for C4: fresh engine has nothing to undo/redo; a server with only
session 1 ignores events for session 2 and no-op undo/redo in session 1. -/
theorem noop_outcomes_silent_witness :
    undoLastStrokeByUser StateManager.init 1 = (none, StateManager.init)
    ∧ redoStrokeByUser StateManager.init 1 = (none, StateManager.init)
    ∧ handleClear (createRoom ServerState.init 1).1 5 2
        = ((createRoom ServerState.init 1).1, [])
    ∧ handleUndo (createRoom ServerState.init 1).1 5 1
        = ((createRoom ServerState.init 1).1, [])
    ∧ handleRedo (createRoom ServerState.init 1).1 5 1
        = ((createRoom ServerState.init 1).1, []) := by
  have h1 := noop_outcomes_silent StateManager.init (createRoom ServerState.init 1).1
    1 5 1 ⟨9, 0⟩ (Room.new 1)
  have h2 := noop_outcomes_silent StateManager.init (createRoom ServerState.init 1).1
    1 5 2 ⟨9, 0⟩ (Room.new 1)
  refine ⟨h1.1 (by decide), h1.2.1 rfl, (h2.2.2.1 rfl).2.2.1, ?_, ?_⟩
  · exact (h1.2.2.2 rfl).1 (by decide)
  · exact (h1.2.2.2 rfl).2 rfl

/-- **C5.** `clearHistory` is total and unconditional: afterwards the history
is empty, every undo/redo stack is gone, `getHistory` is empty, and
`canUndo`/`canRedo` are false for every author. -/
theorem clearHistory_total (sm : StateManager) (u : Nat) :
    getHistory (clearHistory sm) = []
    ∧ (clearHistory sm).history = []
    ∧ canUndo (clearHistory sm) u = false
    ∧ canRedo (clearHistory sm) u = false
    ∧ (clearHistory sm).undoStack u = none
    ∧ (clearHistory sm).redoStack u = none
    ∧ (clearHistory sm).userStrokes u = none :=
  ⟨rfl, rfl, rfl, rfl, rfl, rfl, rfl⟩

/-- **C6.** Session isolation: any operation addressed to session `r1`
(join, drawing step, cursor update, undo, redo, clear, disconnect of one of
`r1`'s participants) leaves the registry entry of any other existing session
`r2` — its roster, history and stacks — exactly unchanged. -/
theorem session_isolation (st : ServerState) (r1 r2 : Nat) (h12 : r1 ≠ r2)
    (_h1 : (st.rooms r1).isSome = true) (_h2 : (st.rooms r2).isSome = true)
    (sid uid color dname : Nat) (stroke : Stroke) (x y : Int) :
    (handleJoin st sid r1 uid color).1.rooms r2 = st.rooms r2
    ∧ (handleDrawingStep st sid r1 stroke).1.rooms r2 = st.rooms r2
    ∧ (handleCursorMove st sid r1 x y).1.rooms r2 = st.rooms r2
    ∧ (handleUndo st sid r1).1.rooms r2 = st.rooms r2
    ∧ (handleRedo st sid r1).1.rooms r2 = st.rooms r2
    ∧ (handleClear st sid r1).1.rooms r2 = st.rooms r2
    ∧ (handleDisconnect st sid (some (r1, dname))).1.rooms r2 = st.rooms r2 := by
  have hne : r2 ≠ r1 := Ne.symm h12
  refine ⟨?_, ?_, ?_, ?_, ?_, ?_, ?_⟩
  · cases hcr : createRoom st r1 with
    | mk st1 room =>
      simp only [handleJoin, hcr]
      rw [setRoom_rooms_ne st1 r1 r2 _ hne]
      have hc := createRoom_rooms_ne st r1 r2 hne
      rw [hcr] at hc
      exact hc
  · cases hr : st.rooms r1 with
    | none => simp [handleDrawingStep, hr]
    | some room =>
      simp only [handleDrawingStep, hr]
      exact setRoom_rooms_ne st r1 r2 _ hne
  · cases hr : st.rooms r1 with
    | none => simp [handleCursorMove, hr]
    | some room =>
      cases hu : room.getUserById sid with
      | none => simp [handleCursorMove, hr, hu]
      | some user =>
        simp only [handleCursorMove, hr, hu]
        exact setRoom_rooms_ne st r1 r2 _ hne
  · cases hr : st.rooms r1 with
    | none => simp [handleUndo, hr]
    | some room =>
      cases hu : undoLastStrokeByUser room.stateManager sid with
      | mk o sm1 =>
        cases o with
        | none =>
          simp only [handleUndo, hr, hu]
          exact setRoom_rooms_ne st r1 r2 _ hne
        | some s =>
          simp only [handleUndo, hr, hu]
          exact setRoom_rooms_ne st r1 r2 _ hne
  · cases hr : st.rooms r1 with
    | none => simp [handleRedo, hr]
    | some room =>
      cases hu : redoStrokeByUser room.stateManager sid with
      | mk o sm1 =>
        cases o with
        | none =>
          simp only [handleRedo, hr, hu]
          exact setRoom_rooms_ne st r1 r2 _ hne
        | some s =>
          simp only [handleRedo, hr, hu]
          exact setRoom_rooms_ne st r1 r2 _ hne
  · cases hr : st.rooms r1 with
    | none => simp [handleClear, hr]
    | some room =>
      simp only [handleClear, hr]
      exact setRoom_rooms_ne st r1 r2 _ hne
  · cases hr : st.rooms r1 with
    | none => simp [handleDisconnect, hr]
    | some room =>
      by_cases hlen : ((room.removeUser sid).users.length = 0)
      · simp only [handleDisconnect, hr, if_pos hlen]
        rw [deleteRoom_rooms_ne _ r1 r2 hne, setRoom_rooms_ne st r1 r2 _ hne]
      · simp only [handleDisconnect, hr, if_neg hlen]
        exact setRoom_rooms_ne st r1 r2 _ hne

/-- Witness for C6: with sessions 1 and 2 registered, an undo and a clear
addressed to session 1 leave session 2's registry entry unchanged. -/
theorem session_isolation_witness :
    (1 : Nat) ≠ 2
    ∧ (handleUndo (createRoom (createRoom ServerState.init 1).1 2).1 5 1).1.rooms 2
        = (createRoom (createRoom ServerState.init 1).1 2).1.rooms 2
    ∧ (handleClear (createRoom (createRoom ServerState.init 1).1 2).1 5 1).1.rooms 2
        = (createRoom (createRoom ServerState.init 1).1 2).1.rooms 2 := by
  have h := session_isolation (createRoom (createRoom ServerState.init 1).1 2).1 1 2
    (by decide) rfl rfl 5 7 3 8 ⟨9, 0⟩ 0 0
  exact ⟨by decide, h.2.2.2.1, h.2.2.2.2.2.1⟩

/-- **C7.** Roster teardown: after the disconnect of one of the session's
participants, the session is gone from the registry exactly when the roster
became empty — kept (with the participant removed) otherwise — and a
subsequent get-or-create of the same id yields a fresh session with empty
roster and empty history. -/
theorem roster_teardown (st : ServerState) (room : Room) (rid sid dname : Nat)
    (hroom : st.rooms rid = some room) :
    ((handleDisconnect st sid (some (rid, dname))).1.rooms rid = none
        ↔ (room.removeUser sid).users = [])
    ∧ ((room.removeUser sid).users ≠ [] →
        (handleDisconnect st sid (some (rid, dname))).1.rooms rid
          = some (room.removeUser sid))
    ∧ ((room.removeUser sid).users = [] →
        (createRoom (handleDisconnect st sid (some (rid, dname))).1 rid).2
          = Room.new rid
        ∧ (createRoom (handleDisconnect st sid (some (rid, dname))).1 rid).2.users
          = []
        ∧ getHistory
            (createRoom
              (handleDisconnect st sid (some (rid, dname))).1 rid).2.stateManager
          = []) := by
  by_cases hlen : ((room.removeUser sid).users.length = 0)
  · have hnil : (room.removeUser sid).users = [] := List.length_eq_zero.mp hlen
    have hstate : (handleDisconnect st sid (some (rid, dname))).1.rooms rid = none := by
      simp only [handleDisconnect, hroom, if_pos hlen]
      exact deleteRoom_rooms_of_some _ rid (room.removeUser sid)
        (setRoom_rooms_same st rid (room.removeUser sid))
    have hcreate :
        (createRoom (handleDisconnect st sid (some (rid, dname))).1 rid).2
          = Room.new rid := by
      rw [createRoom, hstate]
    refine ⟨by simp [hstate, hnil], fun hne => absurd hnil hne, fun _ => ?_⟩
    refine ⟨hcreate, ?_, ?_⟩
    · rw [hcreate]
      rfl
    · rw [hcreate]
      rfl
  · have hne2 : (room.removeUser sid).users ≠ [] := by
      intro hn
      rw [hn] at hlen
      exact hlen rfl
    have hstate : (handleDisconnect st sid (some (rid, dname))).1.rooms rid
        = some (room.removeUser sid) := by
      simp only [handleDisconnect, hroom, if_neg hlen]
      exact setRoom_rooms_same st rid (room.removeUser sid)
    refine ⟨?_, fun _ => hstate, fun hnil => absurd hnil hne2⟩
    rw [hstate]
    simp [hne2]

/-- Witness for C7: session 1 with its single participant 5; participant 5
disconnects; the session is destroyed and a re-create is fresh. -/
theorem roster_teardown_witness :
    (handleDisconnect (handleJoin ServerState.init 5 1 7 3).1 5 (some (1, 7))).1.rooms 1
      = none
    ∧ (createRoom
        (handleDisconnect (handleJoin ServerState.init 5 1 7 3).1 5 (some (1, 7))).1 1).2
      = Room.new 1 := by
  have h := roster_teardown (handleJoin ServerState.init 5 1 7 3).1
    ((Room.new 1).addUser ⟨5, 7, 3, none⟩) 1 5 7 rfl
  have hnil : (((Room.new 1).addUser ⟨5, 7, 3, none⟩).removeUser 5).users = [] := by
    decide
  exact ⟨h.1.mpr hnil, (h.2.2 hnil).1⟩

/-- One engine operation never writes to an allocated cell other than the
current history cell, keeps the history pointer off that cell, and never
shrinks the heap. -/
theorem heap_op_preserves_cell (sm : Heap.HStateManager) (p : Nat)
    (hp : p < sm.heap.length) (hne : sm.histPtr ≠ p) (op : EngineOp) :
    (Heap.applyOp sm op).heap[p]? = sm.heap[p]?
    ∧ (Heap.applyOp sm op).histPtr ≠ p
    ∧ p < (Heap.applyOp sm op).heap.length := by
  cases op with
  | add s =>
    refine ⟨List.getElem?_set_ne hne, hne, ?_⟩
    show p < (sm.heap.set sm.histPtr (Heap.readHist sm ++ [s])).length
    rw [List.length_set]
    exact hp
  | undo u =>
    cases hidx : lastIdxByUser (Heap.readHist sm) u with
    | none =>
      simp only [Heap.applyOp, Heap.undoLastStrokeByUser, hidx]
      exact ⟨trivial, hne, hp⟩
    | some i =>
      simp only [Heap.applyOp, Heap.undoLastStrokeByUser, hidx]
      refine ⟨List.getElem?_set_ne hne, hne, ?_⟩
      rw [List.length_set]
      exact hp
  | redo u =>
    cases hst : sm.undoStack u with
    | none =>
      simp only [Heap.applyOp, Heap.redoStrokeByUser, hst]
      exact ⟨trivial, hne, hp⟩
    | some stack =>
      by_cases hn : stack = []
      · simp only [Heap.applyOp, Heap.redoStrokeByUser, hst, dif_pos hn]
        exact ⟨trivial, hne, hp⟩
      · simp only [Heap.applyOp, Heap.redoStrokeByUser, hst, dif_neg hn]
        refine ⟨List.getElem?_set_ne hne, hne, ?_⟩
        rw [List.length_set]
        exact hp
  | clear =>
    simp only [Heap.applyOp, Heap.clearHistory]
    refine ⟨List.getElem?_append_left hp, Nat.ne_of_gt hp, ?_⟩
    rw [List.length_append]
    exact Nat.lt_succ_of_lt hp

/-- A whole sequence of engine operations leaves every other allocated cell
untouched. -/
theorem heap_runOps_preserves_cell (ops : List EngineOp) :
    ∀ (sm : Heap.HStateManager) (p : Nat), p < sm.heap.length → sm.histPtr ≠ p →
      (Heap.runOps sm ops).heap[p]? = sm.heap[p]? := by
  induction ops with
  | nil => intro sm p _ _; rfl
  | cons op ops ih =>
    intro sm p hp hne
    obtain ⟨h1, h2, h3⟩ := heap_op_preserves_cell sm p hp hne op
    rw [Heap.runOps, ih (Heap.applyOp sm op) p h3 h2, h1]

/-- **C8.** `getHistory` returns a defensive snapshot: the sequence it hands
out equals the current history, and no subsequent engine operations (any mix
of addStroke, undo, redo, clearHistory) change what a previously returned
snapshot reference holds. -/
theorem getHistory_defensive_snapshot (sm : Heap.HStateManager)
    (hwf : Heap.WF sm) (ops : List EngineOp) :
    Heap.readPtr (Heap.getHistory sm).1 (Heap.getHistory sm).2 = Heap.readHist sm
    ∧ Heap.readPtr (Heap.runOps (Heap.getHistory sm).1 ops) (Heap.getHistory sm).2
        = Heap.readHist sm := by
  have hbase : Heap.readPtr (Heap.getHistory sm).1 (Heap.getHistory sm).2
      = Heap.readHist sm := by
    show (sm.heap ++ [Heap.readHist sm]).getD sm.heap.length [] = Heap.readHist sm
    rw [List.getD_eq_getElem?_getD, List.getElem?_concat_length]
    rfl
  refine ⟨hbase, ?_⟩
  have hp : sm.heap.length < (Heap.getHistory sm).1.heap.length := by
    show sm.heap.length < (sm.heap ++ [Heap.readHist sm]).length
    simp
  have hne : (Heap.getHistory sm).1.histPtr ≠ sm.heap.length := by
    show sm.histPtr ≠ sm.heap.length
    exact Nat.ne_of_lt hwf
  have hrun := heap_runOps_preserves_cell ops (Heap.getHistory sm).1 sm.heap.length hp hne
  show (Heap.runOps (Heap.getHistory sm).1 ops).heap.getD sm.heap.length [] = Heap.readHist sm
  rw [List.getD_eq_getElem?_getD, hrun, ← List.getD_eq_getElem?_getD]
  exact hbase

/-- Witness for C8: snapshot taken after one stroke still reads `[A1]` after
a further stroke and a clear. -/
theorem getHistory_defensive_snapshot_witness :
    Heap.WF (Heap.applyOp Heap.init (EngineOp.add ⟨1, 11⟩))
    ∧ Heap.readPtr
        (Heap.runOps (Heap.getHistory (Heap.applyOp Heap.init (EngineOp.add ⟨1, 11⟩))).1
          [EngineOp.add ⟨2, 21⟩, EngineOp.clear])
        (Heap.getHistory (Heap.applyOp Heap.init (EngineOp.add ⟨1, 11⟩))).2
      = [⟨1, 11⟩] := by
  have hwf : Heap.WF (Heap.applyOp Heap.init (EngineOp.add ⟨1, 11⟩)) := by
    show (0 : Nat) < 1
    decide
  have h := getHistory_defensive_snapshot (Heap.applyOp Heap.init (EngineOp.add ⟨1, 11⟩))
    hwf [EngineOp.add ⟨2, 21⟩, EngineOp.clear]
  refine ⟨hwf, ?_⟩
  rw [h.2]
  decide

/-- Erasing at the last index is `dropLast`. -/
theorem eraseIdx_last (l : List Stroke) (h : l ≠ []) :
    l.eraseIdx (l.length - 1) = l.dropLast := by
  have hpos : 0 < l.length := List.length_pos.mpr h
  have hsucc : l.length - 1 + 1 = l.length := by omega
  rw [List.eraseIdx_eq_take_drop_succ, hsucc, List.drop_length, List.append_nil,
    ← List.dropLast_eq_take]

/-- **C9.** Undo/redo round trip: when `undoLastStrokeByUser(u)` returns a
stroke `s`, an immediately following `redoStrokeByUser(u)` returns the same
`s` and appends it at the tail of the intermediate history; when `s` was the
last element of the original history, the round trip restores it exactly. -/
theorem undo_redo_round_trip (sm sm1 : StateManager) (u : Nat) (s : Stroke)
    (h : undoLastStrokeByUser sm u = (some s, sm1)) :
    (redoStrokeByUser sm1 u).1 = some s
    ∧ (redoStrokeByUser sm1 u).2.history = sm1.history ++ [s]
    ∧ (sm.history.getLast? = some s →
        (redoStrokeByUser sm1 u).2.history = sm.history) := by
  obtain ⟨i, hidx, hget, hhist, hstack⟩ := undo_some_inv sm u s sm1 h
  obtain ⟨r1, r2, r3, r4⟩ :=
    redo_eq_of_snoc sm1 u ((sm.undoStack u).getD []) s hstack
  refine ⟨r1, r2, ?_⟩
  intro hlast
  have hne : sm.history ≠ [] := by
    intro hnil
    rw [hnil] at hlast
    simp at hlast
  have hlast2 : sm.history.getLast hne = s := by
    rw [List.getLast?_eq_getLast_of_ne_nil hne] at hlast
    injection hlast
  have hlen1 : sm.history.length - 1 < sm.history.length := by
    have := List.length_pos.mpr hne
    omega
  have hgl : sm.history.get ⟨sm.history.length - 1, hlen1⟩ = s := by
    rw [← hlast2]
    exact (List.getLast_eq_getElem sm.history hne).symm
  have huid : s.userId = u := by
    rw [← hget]
    exact lastIdxByUser_get sm.history u i hidx
  have hmax : sm.history.length - 1 ≤ i.val :=
    lastIdxByUser_largest sm.history u i hidx
      ⟨sm.history.length - 1, hlen1⟩ (by rw [hgl]; exact huid)
  have hival : i.val = sm.history.length - 1 := by
    have := i.2
    omega
  have hdrop : sm1.history = sm.history.dropLast := by
    rw [hhist, hival, eraseIdx_last sm.history hne]
  rw [r2, hdrop, ← hlast2, List.dropLast_append_getLast hne]

/-- Witness for C9: on `[A1, B1, A2]`, undo by author 1 then redo restores
the history exactly and returns `A2` both times. -/
theorem undo_redo_round_trip_witness :
    (redoStrokeByUser (undoLastStrokeByUser smABA 1).2 1).1 = some ⟨1, 12⟩
    ∧ (redoStrokeByUser (undoLastStrokeByUser smABA 1).2 1).2.history
        = smABA.history := by
  have h := undo_redo_round_trip smABA (undoLastStrokeByUser smABA 1).2 1 ⟨1, 12⟩ rfl
  exact ⟨h.1, h.2.2 (by decide)⟩

/-! ### The per-user tracking invariant (C10) -/

/-- Tracking invariant: for every user, the `userStrokes` entry holds exactly
that user's strokes of `history`, in order. -/
def TrackInv (sm : StateManager) : Prop :=
  ∀ v, (sm.userStrokes v).getD [] = sm.history.filter (fun s => s.userId == v)

/-- Stack invariant: `undoStack[v]` holds only strokes authored by `v`
(undo only ever pushes the author's own strokes there). -/
def StackInv (sm : StateManager) : Prop :=
  ∀ v, ∀ s ∈ (sm.undoStack v).getD [], s.userId = v

/-- Everything after the last match has a different author. -/
theorem lastIdxByUser_drop (l : List Stroke) (u : Nat) (i : Fin l.length)
    (h : lastIdxByUser l u = some i) :
    ∀ t ∈ l.drop (i.val + 1), t.userId ≠ u := by
  intro t ht hu
  obtain ⟨k, hk, hget⟩ := List.mem_iff_getElem.mp ht
  have hlen : i.val + 1 + k < l.length := by
    rw [List.length_drop] at hk
    omega
  have hgk : l.get ⟨i.val + 1 + k, hlen⟩ = t := by
    rw [← hget]
    simp [List.getElem_drop]
  have hmax : i.val + 1 + k ≤ i.val :=
    lastIdxByUser_largest l u i h ⟨i.val + 1 + k, hlen⟩ (by rw [hgk]; exact hu)
  omega

theorem trackInv_addStroke (sm : StateManager) (st : Stroke) (h : TrackInv sm) :
    TrackInv (addStroke sm st) := by
  intro v
  show (Function.update sm.userStrokes st.userId
      (some (((sm.userStrokes st.userId).getD []) ++ [st])) v).getD []
    = (sm.history ++ [st]).filter (fun s => s.userId == v)
  by_cases hv : v = st.userId
  · rw [hv, Function.update_same, List.filter_append, ← h st.userId]
    simp
  · rw [Function.update_noteq hv, List.filter_append, ← h v]
    have hfx : (st.userId == v) = false := beq_eq_false_iff_ne.mpr (Ne.symm hv)
    simp [List.filter_cons, hfx]

theorem stackInv_addStroke (sm : StateManager) (st : Stroke) (h : StackInv sm) :
    StackInv (addStroke sm st) := h

theorem inv_undo (sm : StateManager) (u : Nat) (ht : TrackInv sm) (hs : StackInv sm) :
    TrackInv (undoLastStrokeByUser sm u).2 ∧ StackInv (undoLastStrokeByUser sm u).2 := by
  cases hidx : lastIdxByUser sm.history u with
  | none =>
    rw [undoLastStrokeByUser, hidx]
    exact ⟨ht, hs⟩
  | some i =>
    have hgu : (sm.history.get i).userId = u := lastIdxByUser_get sm.history u i hidx
    have hdropn : ∀ t ∈ sm.history.drop (i.val + 1), t.userId ≠ u :=
      lastIdxByUser_drop sm.history u i hidx
    have hsplit : sm.history
        = sm.history.take i.val ++ sm.history.get i :: sm.history.drop (i.val + 1) := by
      conv_lhs => rw [← List.take_append_drop i.val sm.history]
      rw [List.drop_eq_getElem_cons i.2]
      rfl
    have herase : sm.history.eraseIdx i.val
        = sm.history.take i.val ++ sm.history.drop (i.val + 1) :=
      List.eraseIdx_eq_take_drop_succ sm.history i.val
    have h2 : (sm.history.drop (i.val + 1)).filter (fun s => s.userId == u) = [] := by
      rw [List.filter_eq_nil_iff]
      intro t htmem
      simp [hdropn t htmem]
    have hfilter_u : sm.history.filter (fun s => s.userId == u)
        = (sm.history.take i.val).filter (fun s => s.userId == u)
          ++ [sm.history.get i] := by
      conv_lhs => rw [hsplit]
      rw [List.filter_append, List.filter_cons, h2]
      have hgb : ((sm.history.get i).userId == u) = true := by
        rw [hgu]
        exact beq_self_eq_true u
      rw [hgb]
      simp
    have hns : (undoLastStrokeByUser sm u).2
        = { history := sm.history.eraseIdx i.val
            undoStack := Function.update sm.undoStack u
              (some (((sm.undoStack u).getD []) ++ [sm.history.get i]))
            redoStack := sm.redoStack
            userStrokes :=
              match sm.userStrokes u with
              | none => sm.userStrokes
              | some l => Function.update sm.userStrokes u (some l.dropLast) } := by
      rw [undoLastStrokeByUser, hidx]
    refine ⟨?_, ?_⟩
    · intro v
      simp only [hns]
      by_cases hv : v = u
      · subst hv
        cases hm : sm.userStrokes v with
        | none =>
          exfalso
          have hcontra := ht v
          rw [hm, hfilter_u] at hcontra
          simp at hcontra
        | some l =>
          have hl : l = (sm.history.take i.val).filter (fun s => s.userId == v)
              ++ [sm.history.get i] := by
            have hx := ht v
            rw [hm, hfilter_u] at hx
            simpa using hx
          simp only [Function.update_same, Option.getD_some]
          rw [herase, List.filter_append, h2, List.append_nil, hl]
          simp
      · have hfx : ((sm.history.get i).userId == v) = false := by
          rw [hgu]
          exact beq_eq_false_iff_ne.mpr (Ne.symm hv)
        have hfv : sm.history.filter (fun s => s.userId == v)
            = (sm.history.take i.val).filter (fun s => s.userId == v)
              ++ (sm.history.drop (i.val + 1)).filter (fun s => s.userId == v) := by
          conv_lhs => rw [hsplit]
          rw [List.filter_append, List.filter_cons, hfx]
          simp
        cases hm : sm.userStrokes u with
        | none =>
          show (sm.userStrokes v).getD []
            = (sm.history.eraseIdx i.val).filter (fun s => s.userId == v)
          rw [ht v, hfv, herase, List.filter_append]
        | some l =>
          show (Function.update sm.userStrokes u (some l.dropLast) v).getD []
            = (sm.history.eraseIdx i.val).filter (fun s => s.userId == v)
          rw [Function.update_noteq hv, ht v, hfv, herase, List.filter_append]
    · intro w s hsmem
      simp only [hns] at hsmem
      by_cases hw : w = u
      · subst hw
        rw [Function.update_same] at hsmem
        simp only [Option.getD_some] at hsmem
        rcases List.mem_append.mp hsmem with hmem | hmem
        · exact hs w s hmem
        · rw [List.mem_singleton] at hmem
          rw [hmem]
          exact hgu
      · rw [Function.update_noteq hw] at hsmem
        exact hs w s hsmem

theorem inv_redo (sm : StateManager) (u : Nat) (ht : TrackInv sm) (hs : StackInv sm) :
    TrackInv (redoStrokeByUser sm u).2 ∧ StackInv (redoStrokeByUser sm u).2 := by
  cases hst : sm.undoStack u with
  | none =>
    rw [redoStrokeByUser, hst]
    exact ⟨ht, hs⟩
  | some stack =>
    by_cases hn : stack = []
    · subst hn
      have hz : redoStrokeByUser sm u = (none, sm) :=
        redo_none_of_empty sm u (by rw [hst]; rfl)
      rw [hz]
      exact ⟨ht, hs⟩
    · have hns : (redoStrokeByUser sm u).2
          = { history := sm.history ++ [stack.getLast hn]
              undoStack := Function.update sm.undoStack u (some stack.dropLast)
              redoStack := sm.redoStack
              userStrokes := Function.update sm.userStrokes u
                (some (((sm.userStrokes u).getD []) ++ [stack.getLast hn])) } := by
        simp only [redoStrokeByUser, hst, dif_neg hn]
      have hlu : (stack.getLast hn).userId = u := by
        apply hs u
        rw [hst]
        simp only [Option.getD_some]
        exact List.getLast_mem hn
      refine ⟨?_, ?_⟩
      · intro v
        simp only [hns]
        by_cases hv : v = u
        · subst hv
          rw [Function.update_same, List.filter_append, ← ht v]
          simp [hlu]
        · rw [Function.update_noteq hv, List.filter_append, ← ht v]
          have hfx : ((stack.getLast hn).userId == v) = false := by
            rw [hlu]
            exact beq_eq_false_iff_ne.mpr (Ne.symm hv)
          simp [List.filter_cons, hfx]
      · intro w s hsmem
        simp only [hns] at hsmem
        by_cases hw : w = u
        · subst hw
          rw [Function.update_same] at hsmem
          simp only [Option.getD_some] at hsmem
          have hmem : s ∈ stack := List.mem_of_mem_dropLast hsmem
          apply hs w s
          rw [hst]
          simpa using hmem
        · rw [Function.update_noteq hw] at hsmem
          exact hs w s hsmem

theorem inv_clear (sm : StateManager) :
    TrackInv (clearHistory sm) ∧ StackInv (clearHistory sm) := by
  constructor
  · intro v
    rfl
  · intro w s hsmem
    exact absurd hsmem (List.not_mem_nil s)

theorem inv_init : TrackInv StateManager.init ∧ StackInv StateManager.init := by
  constructor
  · intro v
    rfl
  · intro w s hsmem
    exact absurd hsmem (List.not_mem_nil s)

theorem inv_applyOp (sm : StateManager) (op : EngineOp)
    (h : TrackInv sm ∧ StackInv sm) :
    TrackInv (applyOp sm op) ∧ StackInv (applyOp sm op) := by
  cases op with
  | add s => exact ⟨trackInv_addStroke sm s h.1, stackInv_addStroke sm s h.2⟩
  | undo u => exact inv_undo sm u h.1 h.2
  | redo u => exact inv_redo sm u h.1 h.2
  | clear => exact inv_clear sm

theorem inv_runOps (ops : List EngineOp) :
    ∀ sm : StateManager, TrackInv sm ∧ StackInv sm →
      TrackInv (runOps sm ops) ∧ StackInv (runOps sm ops) := by
  induction ops with
  | nil => exact fun sm h => h
  | cons op ops ih =>
    intro sm h
    rw [runOps]
    exact ih (applyOp sm op) (inv_applyOp sm op h)

/-- **C10.** In every state reachable from a fresh engine by any sequence of
`addStroke`, `undoLastStrokeByUser`, `redoStrokeByUser` and `clearHistory`,
the `userStrokes` entry of every user is exactly the subsequence of history
authored by that user, so `getStrokesByUser` returns exactly those strokes
and `getUserStrokeCount` counts them. -/
theorem userStrokes_tracks_history (ops : List EngineOp) (u : Nat) :
    getStrokesByUser (runOps StateManager.init ops) u
      = (runOps StateManager.init ops).history.filter (fun s => s.userId == u)
    ∧ getUserStrokeCount (runOps StateManager.init ops) u
      = ((runOps StateManager.init ops).history.filter
          (fun s => s.userId == u)).length := by
  have h := (inv_runOps ops StateManager.init inv_init).1 u
  refine ⟨h, ?_⟩
  show (((runOps StateManager.init ops).userStrokes u).getD []).length = _
  rw [h]

end FlamCanvas
